import Mathlib

/-!
Verification of `scripts/update_rustdoc.py`.

The script has two components:

* `find_project_root`: walks upward from a starting directory until a
  directory containing a `.git` entry, or both a `README.md` entry and a
  `src` entry, is found; if the filesystem root is reached without a match
  it returns the original starting path.

* `main`: reads `README.md`, locates the `## Modules` heading with the
  regex `(?m)^##\s+Modules\s*$`, bounds the section body at the next line
  matching `(?m)^(?:#|##)\s+`, rewrites inline links `[label](url)` to
  `[label]` inside the body (excluding image links via the negative
  lookbehind `(?<!\!)`), reassembles the document, and writes it out.

Texts are modelled as `List Char`.  The regex character class `\s` is
modelled on its ASCII fragment (space, tab, newline, carriage return,
vertical tab, form feed), which covers every character class decision the
script's inputs exercise here.  Filesystem paths are modelled as lists of
path components with the deepest component first, so that the parent of
`c :: p` is `p` and the parent of the filesystem root `[]` is itself.
-/

/-- ASCII fragment of the regex character class `\s` used by the script's
patterns (`re` whitespace for these code points). -/
def pws (c : Char) : Bool :=
  c == ' ' || c == '\t' || c == '\n' || c == '\r' || c == '\x0b' || c == '\x0c'

/-- Negation of "is a newline", used to split a text at the next line
terminator exactly as the scanners below need it. -/
def notNl (c : Char) : Bool :=
  ! (c == '\n')

/-- The literal word `Modules` from the heading regex `^##\s+Modules\s*$`. -/
def mods : List Char :=
  "Modules".toList

/-- `beginsWith pat l` holds when `pat` occurs at the very front of `l`
(the literal-word step of the heading regex). -/
def beginsWith : List Char → List Char → Bool
  | [], _ => true
  | _ :: _, [] => false
  | c :: cs, d :: ds => c == d && beginsWith cs ds

/-- `containsSeg pat l` holds when `pat` occurs contiguously somewhere in
`l`. -/
def containsSeg (pat : List Char) : List Char → Bool
  | [] => beginsWith pat []
  | c :: rest => beginsWith pat (c :: rest) || containsSeg pat rest

/-- Index of the last `'\n'` in a list, if any.  This realises the
backtracking of the greedy `\s*` before the `$` anchor: the match end is
placed before the last newline the run can reach. -/
def lastNlIdx : List Char → Option Nat
  | [] => none
  | c :: rest =>
    match lastNlIdx rest with
    | some k => some (k + 1)
    | none => if c = '\n' then some 0 else none

/-- Attempt of the link pattern `\[(?P<label>[^\]]+)\]\([^)]+\)` at the
position just after an opening `[`: the label is the maximal nonempty run
of non-`]` characters, which must be followed by `](`, then the URL is the
maximal nonempty run of non-`)` characters, which must be followed by `)`.
On success, returns the label and the text after the closing `)`. -/
def tryLink (rest : List Char) : Option (List Char × List Char) :=
  let label := rest.takeWhile (fun c => ! (c == ']'))
  if label.length = 0 then none
  else
    match rest.drop label.length with
    | ']' :: '(' :: r2 =>
      let url := r2.takeWhile (fun c => ! (c == ')'))
      if url.length = 0 then none
      else
        match r2.drop url.length with
        | ')' :: rem => some (label, rem)
        | _ => none
    | _ => none

/-- One left-to-right pass of
`re.sub(r'(?<!\!)\[(?P<label>[^\]]+)\]\([^)]+\)', r'[\g<label>]', s)`:
at each position, if an opening `[` not preceded by `!` starts a link
match, emit `[label]` and continue after the match; otherwise copy the
character.  `prev` is the character before the current position (for the
negative lookbehind); `fuel` bounds the recursion and is never exhausted
when it starts at the length of the text. -/
def subAux : Nat → Option Char → List Char → List Char
  | 0, _, l => l
  | _ + 1, _, [] => []
  | fuel + 1, prev, c :: rest =>
    if c = '[' ∧ ¬ prev = some '!' then
      match tryLink rest with
      | some (label, rem) => '[' :: (label ++ ']' :: subAux fuel (some ')') rem)
      | none => c :: subAux fuel (some c) rest
    else c :: subAux fuel (some c) rest

/-- The section-body link rewriting step (`re.sub` on the section text,
with no character before position 0, so the lookbehind is vacuous there). -/
def subLinks (s : List Char) : List Char :=
  subAux s.length none s

/-- `hasLink prev s` holds when some position of `s` carries an occurrence
of the link pattern whose `[` is not preceded by `!` (taking `prev` as the
character before `s`). -/
def hasLink : Option Char → List Char → Bool
  | _, [] => false
  | prev, c :: rest =>
    if c = '[' ∧ ¬ prev = some '!' then
      (tryLink rest).isSome || hasLink (some c) rest
    else hasLink (some c) rest

/-- Attempt of the heading regex `##\s+Modules\s*$` at a line start: two
`#`, a nonempty whitespace run, the word `Modules`, then a greedy
whitespace run backtracking to the last position where `$` holds (before a
newline, or the end of the text).  Returns the offset of the match end
(`m.end()`) relative to the line start. -/
def matchHeadingAt (l : List Char) : Option Nat :=
  match l with
  | '#' :: '#' :: rest =>
    let w := rest.takeWhile pws
    if w.length = 0 then none
    else
      let r1 := rest.drop w.length
      if beginsWith mods r1 then
        let r2 := r1.drop mods.length
        let run := r2.takeWhile pws
        let rem := r2.drop run.length
        if rem.length = 0 then some (2 + w.length + mods.length + run.length)
        else
          match lastNlIdx run with
          | some k => some (2 + w.length + mods.length + k)
          | none => none
      else none
  | _ => none

/-- Whether a line begins with the section-terminating pattern
`(?:#|\##)\s+`: a `#` followed by whitespace, or `##` followed by
whitespace (the single-`#` alternative is tried first, exactly as in the
regex alternation). -/
def isSecHeadStart (l : List Char) : Bool :=
  match l with
  | '#' :: '#' :: c :: _ => pws '#' || pws c
  | '#' :: c :: _ => pws c
  | _ => false

/-- Matcher for the section-end search: succeeds with offset 0 (the match
start, `m.end` is not used there) when the line begins a level-1 or
level-2 heading. -/
def secHeadF (l : List Char) : Option Nat :=
  if isSecHeadStart l then some 0 else none

/-- Generic multiline scan of `re.search` for a pattern anchored with
`(?m)^`: try the matcher `f` at the current line start; on failure, skip
to just after the next newline and continue, offsetting the returned
position.  `fuel` bounds the recursion and is never exhausted when it
starts above the length of the text. -/
def scanL (f : List Char → Option Nat) : Nat → List Char → Option Nat
  | 0, _ => none
  | fuel + 1, l =>
    match f l with
    | some e => some e
    | none =>
      match l.dropWhile notNl with
      | [] => none
      | _ :: rest =>
        match scanL f fuel rest with
        | some k => some ((l.takeWhile notNl).length + 1 + k)
        | none => none

/-- `re.search(r'(?m)^##\s+Modules\s*$', text)`, returning `m.end()`. -/
def headingSearch (t : List Char) : Option Nat :=
  scanL matchHeadingAt (t.length + 1) t

/-- `re.search(r'(?m)^(?:#|\##)\s+', rest)`, returning `m.start()`. -/
def sectionSearch (t : List Char) : Option Nat :=
  scanL secHeadF (t.length + 1) t

/-- The section-rewriting core of `main` (lines 43-69 of the script):
locate the `## Modules` heading; if absent return the text unchanged;
otherwise bound the section body at the next level-1/level-2 heading line
(or the end of the text), rewrite links inside the body only, and
reassemble `before ++ section_fixed ++ after`. -/
def rewriteModulesSection (t : List Char) : List Char :=
  match headingSearch t with
  | none => t
  | some s =>
    let rest := t.drop s
    let k := (sectionSearch rest).getD rest.length
    t.take s ++ subLinks (rest.take k) ++ rest.drop k

/-- Character offset where the section body starts (`m.end()` of the
heading match); equal to the text length when no heading is found. -/
def startOf (t : List Char) : Nat :=
  (headingSearch t).getD t.length

/-- Length of the section body span; zero when no heading is found. -/
def sectionLen (t : List Char) : Nat :=
  match headingSearch t with
  | none => 0
  | some s => (sectionSearch (t.drop s)).getD (t.drop s).length

/-- Character offset where the section body ends. -/
def endOf (t : List Char) : Nat :=
  startOf t + sectionLen t

/-- The section body `text[start_idx:end_idx]`. -/
def sectionOf (t : List Char) : List Char :=
  (t.drop (startOf t)).take (sectionLen t)

/-- The untouched suffix `text[end_idx:]`. -/
def afterOf (t : List Char) : List Char :=
  (t.drop (startOf t)).drop (sectionLen t)

/-- `j` is a position where the multiline anchor `^` matches: the start of
the text, or just after a newline. -/
def isLineStartB (l : List Char) (j : Nat) : Bool :=
  j == 0 || (l.drop (j - 1)).head? == some '\n'

/-- Abstract filesystem for `find_project_root`: which entries exist, and
how `Path.resolve()` canonicalises a path.  Paths are component lists with
the deepest component first; the filesystem root is `[]`. -/
structure FS where
  entryExists : List String → Bool
  resolvePath : List String → List String

/-- `(cur / ".git").exists()`. -/
def hasGit (fs : FS) (p : List String) : Bool :=
  fs.entryExists (".git" :: p)

/-- `(cur / "README.md").exists() and (cur / "src").exists()`. -/
def hasReadmeSrc (fs : FS) (p : List String) : Bool :=
  fs.entryExists ("README.md" :: p) && fs.entryExists ("src" :: p)

/-- The upward walk of `find_project_root`: test `.git` first, then the
`README.md`/`src` pair; at the filesystem root (its own parent) fall back
to the original `start`; otherwise move to the parent. -/
def findRootLoop (fs : FS) (start : List String) : List String → List String
  | [] =>
    if hasGit fs [] then []
    else if hasReadmeSrc fs [] then []
    else start
  | c :: rest =>
    if hasGit fs (c :: rest) then c :: rest
    else if hasReadmeSrc fs (c :: rest) then c :: rest
    else findRootLoop fs start rest

/-- `find_project_root(start)`: resolve the start, then walk upward. -/
def findProjectRoot (fs : FS) (start : List String) : List String :=
  findRootLoop fs start (fs.resolvePath start)

/-- Status line printed when the heading is absent (README copied
unchanged). -/
def noSectionMsg : List Char :=
  "Section '## Modules' not found. Copied README to src/RUSTDOC.md unchanged.".toList

/-- Status line printed on the rewritten-output path, with the output file
path and the resolved root interpolated. -/
def createdMsg (root : List Char) : List Char :=
  "Created ".toList ++ root ++ "/src/RUSTDOC.md (project root: ".toList ++
    root ++ ") with Docs.rs style links in '## Modules' section.".toList

/-- Error line printed when the resolved README does not exist, with the
attempted path and the resolved root interpolated. -/
def errorMsg (root : List Char) : List Char :=
  "Error: ".toList ++ (root ++ "/README.md".toList) ++
    " not found (root: ".toList ++ root ++ ")".toList

/-- Observable outcome of one invocation of `main` after root resolution:
what was written to `src/RUSTDOC.md` (if anything), the status lines on
stdout/stderr, and the process exit code. -/
structure MainOutcome where
  written : Option (List Char)
  stdoutLine : Option (List Char)
  stderrLine : Option (List Char)
  exitCode : Nat

/-- `main` from the README-existence check onward (lines 36-74 of the
script), abstracted over the resolved root path (as its display string)
and the README content (`none` when the file does not exist). -/
def mainModel (root : List Char) (readme : Option (List Char)) : MainOutcome :=
  match readme with
  | none => ⟨none, none, some (errorMsg root), 1⟩
  | some text =>
    match headingSearch text with
    | none => ⟨some text, some noSectionMsg, none, 0⟩
    | some _ => ⟨some (rewriteModulesSection text), some (createdMsg root), none, 0⟩

/-- The character just before the current scan position after copying the
segment `l` verbatim: the last character of `l`, or `prev` when `l` is
empty. -/
def lastOr (prev : Option Char) : List Char → Option Char
  | [] => prev
  | c :: rest => lastOr (some c) rest

/-! ### Basic list facts used throughout -/

theorem takeWhile_len_le (p : Char → Bool) (l : List Char) :
    (l.takeWhile p).length ≤ l.length := by
  induction l with
  | nil => simp
  | cons c rest ih =>
    by_cases h : p c
    · simp [List.takeWhile_cons, h]
      omega
    · simp [List.takeWhile_cons, h]

theorem drop_takeWhile_len (p : Char → Bool) (l : List Char) :
    l.drop (l.takeWhile p).length = l.dropWhile p := by
  induction l with
  | nil => simp
  | cons c rest ih =>
    by_cases h : p c
    · simp [List.takeWhile_cons, List.dropWhile_cons, h, ih]
    · simp [List.takeWhile_cons, List.dropWhile_cons, h]

theorem dropWhile_head_false (p : Char → Bool) (l : List Char) (c : Char) (r : List Char)
    (h : l.dropWhile p = c :: r) : p c = false := by
  induction l with
  | nil => simp at h
  | cons d rest ih =>
    by_cases hd : p d
    · rw [List.dropWhile_cons] at h
      simp [hd] at h
      exact ih h
    · rw [List.dropWhile_cons] at h
      simp [hd] at h
      rw [← h.1]
      simp [hd]

theorem dropWhile_nil_all (p : Char → Bool) (l : List Char)
    (h : l.dropWhile p = []) : ∀ c ∈ l, p c = true := by
  rw [List.dropWhile_eq_nil_iff] at h
  exact h

theorem takeWhile_append_all (p : Char → Bool) (xs ys : List Char)
    (h : ∀ c ∈ xs, p c = true) :
    (xs ++ ys).takeWhile p = xs ++ ys.takeWhile p := by
  induction xs with
  | nil => simp
  | cons c rest ih =>
    have hc : p c = true := h c (List.mem_cons_self c rest)
    simp only [List.cons_append, List.takeWhile_cons, hc, if_true]
    rw [ih (fun d hd => h d (List.mem_cons_of_mem c hd))]

theorem takeWhile_cons_false (p : Char → Bool) (c : Char) (ys : List Char)
    (h : p c = false) : (c :: ys).takeWhile p = [] := by
  simp [List.takeWhile_cons, h]

theorem beginsWith_self_append (xs ys : List Char) :
    beginsWith xs (xs ++ ys) = true := by
  induction xs with
  | nil => simp [beginsWith]
  | cons c rest ih => simp [beginsWith, ih]

theorem beginsWith_len_le (xs l : List Char) (h : beginsWith xs l = true) :
    xs.length ≤ l.length := by
  induction xs generalizing l with
  | nil => simp
  | cons c rest ih =>
    cases l with
    | nil => simp [beginsWith] at h
    | cons d ds =>
      simp only [beginsWith, Bool.and_eq_true] at h
      have := ih ds h.2
      simp
      omega

theorem lastNl_lt (l : List Char) (k : Nat) (h : lastNlIdx l = some k) :
    k < l.length := by
  induction l generalizing k with
  | nil => simp [lastNlIdx] at h
  | cons c rest ih =>
    rw [lastNlIdx] at h
    cases hr : lastNlIdx rest with
    | some m =>
      rw [hr] at h
      simp at h
      have := ih m hr
      simp
      omega
    | none =>
      rw [hr] at h
      by_cases hc : c = '\n'
      · simp [hc] at h
        simp
        omega
      · simp [hc] at h

theorem lastNl_isSome_of_mem (l : List Char) (h : '\n' ∈ l) :
    (lastNlIdx l).isSome = true := by
  induction l with
  | nil => simp at h
  | cons c rest ih =>
    rw [lastNlIdx]
    cases hr : lastNlIdx rest with
    | some m => simp
    | none =>
      rcases List.mem_cons.mp h with h1 | h1
      · simp [← h1]
      · have := ih h1
        rw [hr] at this
        simp at this

theorem head?_append_ne_nil (l r : List Char) (h : l ≠ []) :
    (l ++ r).head? = l.head? := by
  cases l with
  | nil => exact absurd rfl h
  | cons c cs => simp

theorem head?_mem (l : List Char) (c : Char) (h : l.head? = some c) : c ∈ l := by
  cases l with
  | nil => simp at h
  | cons d ds =>
    simp at h
    exact List.mem_cons.mpr (Or.inl h.symm)

theorem getLast?_concat_form (l : List Char) (c : Char) (h : l.getLast? = some c) :
    ∃ l', l = l' ++ [c] := by
  induction l generalizing c with
  | nil => simp at h
  | cons d rest ih =>
    cases rest with
    | nil =>
      simp [List.getLast?_singleton] at h
      exact ⟨[], by simp [h]⟩
    | cons e es =>
      rw [List.getLast?_cons_cons] at h
      obtain ⟨l', hl'⟩ := ih c h
      exact ⟨d :: l', by rw [List.cons_append, ← hl']⟩

/-! ### The link substitution pass -/

theorem tryLink_some_shape (rest label rem : List Char)
    (h : tryLink rest = some (label, rem)) :
    ∃ url : List Char,
      rest = label ++ ']' :: '(' :: (url ++ ')' :: rem) ∧
      label.length ≠ 0 ∧ url.length ≠ 0 := by
  unfold tryLink at h
  by_cases h0 : (rest.takeWhile (fun c => ! (c == ']'))).length = 0
  · simp [h0] at h
  · simp only [h0, if_false] at h
    split at h
    case _ r2 heq =>
      by_cases h1 : (r2.takeWhile (fun c => ! (c == ')'))).length = 0
      · simp [h1] at h
      · simp only [h1, if_false] at h
        split at h
        case _ rem2 heq2 =>
          simp only [Option.some.injEq, Prod.mk.injEq] at h
          obtain ⟨hlab, hrem⟩ := h
          refine ⟨r2.takeWhile (fun c => ! (c == ')')), ?_, ?_, h1⟩
          · have hs1 : rest = rest.takeWhile (fun c => ! (c == ']')) ++ (']' :: '(' :: r2) := by
              conv_lhs => rw [← List.takeWhile_append_dropWhile (p := fun c => ! (c == ']')) (l := rest)]
              rw [← drop_takeWhile_len, heq]
            have hs2 : r2 = r2.takeWhile (fun c => ! (c == ')')) ++ (')' :: rem2) := by
              conv_lhs => rw [← List.takeWhile_append_dropWhile (p := fun c => ! (c == ')')) (l := r2)]
              rw [← drop_takeWhile_len, heq2]
            rw [← hrem, ← hs2, ← hlab]
            exact hs1
          · rw [← hlab]; exact h0
        case _ h2 => simp at h
    case _ h2 => simp at h

theorem tryLink_len_facts (rest label rem : List Char)
    (h : tryLink rest = some (label, rem)) :
    label.length + rem.length + 4 ≤ rest.length ∧ 1 ≤ label.length := by
  obtain ⟨url, hshape, hl, hu⟩ := tryLink_some_shape rest label rem h
  rw [hshape]
  simp [List.length_append]
  omega

theorem subAux_zero (prev : Option Char) (l : List Char) : subAux 0 prev l = l := rfl

theorem subAux_nil (fuel : Nat) (prev : Option Char) : subAux fuel prev [] = [] := by
  cases fuel <;> rfl

theorem subAux_cons_copy (fuel : Nat) (prev : Option Char) (c : Char) (rest : List Char)
    (h : ¬ (c = '[' ∧ ¬ prev = some '!')) :
    subAux (fuel + 1) prev (c :: rest) = c :: subAux fuel (some c) rest := by
  simp only [subAux, if_neg h]

theorem subAux_cons_guard_none (fuel : Nat) (prev : Option Char) (c : Char) (rest : List Char)
    (hg : c = '[' ∧ ¬ prev = some '!') (ht : tryLink rest = none) :
    subAux (fuel + 1) prev (c :: rest) = c :: subAux fuel (some c) rest := by
  simp only [subAux, if_pos hg, ht]

theorem subAux_cons_link (fuel : Nat) (prev : Option Char) (rest label rem : List Char)
    (hg : ¬ prev = some '!') (ht : tryLink rest = some (label, rem)) :
    subAux (fuel + 1) prev ('[' :: rest) = '[' :: (label ++ ']' :: subAux fuel (some ')') rem) := by
  simp [subAux, ht, hg]

theorem hasLink_nil (prev : Option Char) : hasLink prev [] = false := rfl

theorem subAux_len_le :
    ∀ (fuel : Nat) (prev : Option Char) (l : List Char),
      (subAux fuel prev l).length ≤ l.length := by
  intro fuel
  induction fuel with
  | zero => intro prev l; rw [subAux_zero]
  | succ n ih =>
    intro prev l
    cases l with
    | nil => rw [subAux_nil]
    | cons c rest =>
      by_cases hg : c = '[' ∧ ¬ prev = some '!'
      · cases ht : tryLink rest with
        | none =>
          rw [subAux_cons_guard_none n prev c rest hg ht]
          have := ih (some c) rest
          simp only [List.length_cons]
          omega
        | some pr =>
          obtain ⟨label, rem⟩ := pr
          obtain ⟨hg1, hg2⟩ := hg
          subst hg1
          rw [subAux_cons_link n prev rest label rem hg2 ht]
          have hlen := tryLink_len_facts rest label rem ht
          have := ih (some ')') rem
          simp only [List.length_cons, List.length_append]
          omega
      · rw [subAux_cons_copy n prev c rest hg]
        have := ih (some c) rest
        simp only [List.length_cons]
        omega

theorem subAux_eq_self :
    ∀ (fuel : Nat) (prev : Option Char) (l : List Char),
      hasLink prev l = false → subAux fuel prev l = l := by
  intro fuel
  induction fuel with
  | zero => intro prev l _; rw [subAux_zero]
  | succ n ih =>
    intro prev l h
    cases l with
    | nil => rw [subAux_nil]
    | cons c rest =>
      by_cases hg : c = '[' ∧ ¬ prev = some '!'
      · simp only [hasLink, if_pos hg, Bool.or_eq_false_iff] at h
        obtain ⟨ht, hrest⟩ := h
        have ht' : tryLink rest = none := by
          cases htl : tryLink rest with
          | none => rfl
          | some pr => rw [htl] at ht; simp at ht
        rw [subAux_cons_guard_none n prev c rest hg ht']
        rw [ih (some c) rest hrest]
      · simp only [hasLink, if_neg hg] at h
        rw [subAux_cons_copy n prev c rest hg]
        rw [ih (some c) rest h]

theorem subAux_len_lt :
    ∀ (fuel : Nat) (prev : Option Char) (l : List Char),
      l.length ≤ fuel → hasLink prev l = true →
      (subAux fuel prev l).length < l.length := by
  intro fuel
  induction fuel with
  | zero =>
    intro prev l hf h
    have : l = [] := List.length_eq_zero.mp (by omega)
    rw [this] at h
    rw [hasLink_nil] at h
    simp at h
  | succ n ih =>
    intro prev l hf h
    cases l with
    | nil => rw [hasLink_nil] at h; simp at h
    | cons c rest =>
      by_cases hg : c = '[' ∧ ¬ prev = some '!'
      · cases ht : tryLink rest with
        | some pr =>
          obtain ⟨label, rem⟩ := pr
          obtain ⟨hg1, hg2⟩ := hg
          subst hg1
          rw [subAux_cons_link n prev rest label rem hg2 ht]
          have hlen := tryLink_len_facts rest label rem ht
          have := subAux_len_le n (some ')') rem
          simp only [List.length_cons, List.length_append]
          omega
        | none =>
          simp only [hasLink, if_pos hg, ht, Option.isSome_none, Bool.false_or] at h
          rw [subAux_cons_guard_none n prev c rest hg ht]
          have := ih (some c) rest (by simp at hf; omega) h
          simp only [List.length_cons]
          omega
      · simp only [hasLink, if_neg hg] at h
        rw [subAux_cons_copy n prev c rest hg]
        have := ih (some c) rest (by simp at hf; omega) h
        simp only [List.length_cons]
        omega

theorem subAux_prev_irrel (fuel : Nat) (p₁ p₂ : Option Char) (l : List Char)
    (h : ¬ l.head? = some '[') : subAux fuel p₁ l = subAux fuel p₂ l := by
  cases fuel with
  | zero => rfl
  | succ n =>
    cases l with
    | nil => rfl
    | cons c rest =>
      have hc : ¬ c = '[' := by simp at h; exact h
      rw [subAux_cons_copy n p₁ c rest (fun hand => hc hand.1),
        subAux_cons_copy n p₂ c rest (fun hand => hc hand.1)]

theorem lastOr_nil (prev : Option Char) : lastOr prev [] = prev := rfl

theorem lastOr_cons (prev : Option Char) (c : Char) (l : List Char) :
    lastOr prev (c :: l) = lastOr (some c) l := rfl

theorem subAux_copy_seg :
    ∀ (pre : List Char), '[' ∉ pre →
      ∀ (fuel : Nat) (prev : Option Char) (r : List Char),
        (pre ++ r).length ≤ fuel →
        subAux fuel prev (pre ++ r) =
          pre ++ subAux (fuel - pre.length) (lastOr prev pre) r := by
  intro pre
  induction pre with
  | nil =>
    intro _ fuel prev r _
    simp [lastOr_nil]
  | cons c pre' ih =>
    intro h fuel prev r hf
    simp only [List.mem_cons, not_or] at h
    obtain ⟨hc, hpre'⟩ := h
    cases fuel with
    | zero => simp at hf
    | succ n =>
      rw [List.cons_append, subAux_cons_copy n prev c (pre' ++ r)
        (fun hand => hc hand.1.symm)]
      rw [ih hpre' n (some c) r (by simp at hf ⊢; omega)]
      rw [List.cons_append, List.length_cons, Nat.succ_sub_succ, lastOr_cons]

/-! ### Line starts and the multiline scanners -/

theorem isLineStartB_zero (l : List Char) : isLineStartB l 0 = true := by
  simp [isLineStartB]

theorem ls_before_false (a rest : List Char) (hall : ∀ c ∈ a, notNl c = true) (j : Nat)
    (h1 : 0 < j) (h2 : j - 1 < a.length) :
    isLineStartB (a ++ '\n' :: rest) j = false := by
  simp only [isLineStartB, Bool.or_eq_false_iff]
  constructor
  · rw [beq_eq_false_iff_ne]
    omega
  · rw [List.drop_append_eq_append_drop]
    have hz : j - 1 - a.length = 0 := by omega
    rw [hz, List.drop_zero]
    have hne : a.drop (j - 1) ≠ [] := by
      intro hnil
      have hld := List.length_drop (j - 1) a
      rw [hnil] at hld
      simp at hld
      omega
    rw [head?_append_ne_nil _ _ hne]
    cases hh : (a.drop (j - 1)).head? with
    | none => simp
    | some c =>
      have hc : c ∈ a := List.mem_of_mem_drop (head?_mem _ _ hh)
      have hcn := hall c hc
      simp [notNl] at hcn
      simp [hcn]

theorem drop_append_nl (a rest : List Char) (m : Nat) (hm : a.length ≤ m) :
    (a ++ '\n' :: rest).drop m = ('\n' :: rest).drop (m - a.length) := by
  rw [List.drop_append_eq_append_drop, List.drop_eq_nil_of_le hm, List.nil_append]

theorem drop_append_shift (a rest : List Char) (j : Nat) (hj : a.length + 1 ≤ j) :
    (a ++ '\n' :: rest).drop j = rest.drop (j - a.length - 1) := by
  rw [drop_append_nl a rest j (by omega)]
  obtain ⟨m, hm⟩ : ∃ m, j - a.length = m + 1 := ⟨j - a.length - 1, by omega⟩
  rw [hm, List.drop_succ_cons]
  simp

theorem ls_shift (a rest : List Char) (j : Nat) (hj : a.length + 1 ≤ j) :
    isLineStartB (a ++ '\n' :: rest) j = isLineStartB rest (j - a.length - 1) := by
  rcases Nat.eq_or_lt_of_le hj with heq | hlt
  · have hj1 : j - 1 = a.length := by omega
    have hda : (a ++ '\n' :: rest).drop (j - 1) = '\n' :: rest := by
      rw [hj1, drop_append_nl a rest a.length (by omega)]
      simp
    have hz : j - a.length - 1 = 0 := by omega
    rw [hz, isLineStartB_zero]
    simp [isLineStartB, hda]
  · have h0 : (j == 0) = false := by simp; omega
    have h0' : (j - a.length - 1 == 0) = false := by simp; omega
    simp only [isLineStartB, h0, h0', Bool.false_or]
    have hda : (a ++ '\n' :: rest).drop (j - 1) = rest.drop (j - a.length - 1 - 1) := by
      rw [drop_append_shift a rest (j - 1) (by omega)]
      congr 1
      omega
    rw [hda]

theorem scanL_none_sound (f : List Char → Option Nat) :
    ∀ (fuel : Nat) (l : List Char), l.length < fuel → scanL f fuel l = none →
      ∀ j, isLineStartB l j = true → f (l.drop j) = none := by
  intro fuel
  induction fuel with
  | zero => intro l hl; exact absurd hl (Nat.not_lt_zero _)
  | succ n ih =>
    intro l hl hscan j hj
    cases hf : f l with
    | some e => simp [scanL, hf] at hscan
    | none =>
      cases hd : l.dropWhile notNl with
      | nil =>
        have hall : ∀ c ∈ l, notNl c = true := dropWhile_nil_all notNl l hd
        by_cases hj0 : j = 0
        · rw [hj0, List.drop_zero]; exact hf
        · simp only [isLineStartB, Bool.or_eq_true] at hj
          rcases hj with hj1 | hj2
          · simp at hj1; exact absurd hj1 hj0
          · have hmem : '\n' ∈ l :=
              List.mem_of_mem_drop (head?_mem _ _ (by simpa using hj2))
            have hcn := hall _ hmem
            simp [notNl] at hcn
      | cons d rest =>
        have hdnl : d = '\n' := by
          have hfb := dropWhile_head_false notNl l d rest hd
          simp [notNl] at hfb
          exact hfb
        subst hdnl
        have hl_eq : l = l.takeWhile notNl ++ '\n' :: rest := by
          conv_lhs => rw [← List.takeWhile_append_dropWhile (p := notNl) (l := l)]
          rw [hd]
        set a := l.takeWhile notNl with ha
        cases hrec : scanL f n rest with
        | some k => simp [scanL, hf, hd, hrec] at hscan
        | none =>
          have hlen : rest.length < n := by
            have hlc := congrArg List.length hl_eq
            simp [List.length_append] at hlc
            omega
          by_cases hj0 : j = 0
          · rw [hj0, List.drop_zero]; exact hf
          · have hjpos : 0 < j := Nat.pos_of_ne_zero hj0
            by_cases hcase : j - 1 < a.length
            · rw [hl_eq] at hj
              rw [ls_before_false a rest (fun c hc => List.mem_takeWhile_imp hc) j hjpos hcase] at hj
              simp at hj
            · have hge : a.length + 1 ≤ j := by omega
              rw [hl_eq] at hj
              rw [ls_shift a rest j hge] at hj
              rw [hl_eq, drop_append_shift a rest j hge]
              exact ih rest hlen hrec _ hj

theorem scanL_some_sound (f : List Char → Option Nat) :
    ∀ (fuel : Nat) (l : List Char) (v : Nat), l.length < fuel → scanL f fuel l = some v →
      ∃ j e, isLineStartB l j = true ∧ f (l.drop j) = some e ∧ v = j + e ∧
        ∀ i, i < j → isLineStartB l i = true → f (l.drop i) = none := by
  intro fuel
  induction fuel with
  | zero => intro l v hl; exact absurd hl (Nat.not_lt_zero _)
  | succ n ih =>
    intro l v hl hscan
    cases hf : f l with
    | some e =>
      have hev : e = v := by
        simpa [scanL, hf] using hscan
      refine ⟨0, e, isLineStartB_zero l, ?_, by omega, ?_⟩
      · rw [List.drop_zero]; exact hf
      · intro i hi _
        exact absurd hi (by omega)
    | none =>
      cases hd : l.dropWhile notNl with
      | nil => simp [scanL, hf, hd] at hscan
      | cons d rest =>
        have hdnl : d = '\n' := by
          have hfb := dropWhile_head_false notNl l d rest hd
          simp [notNl] at hfb
          exact hfb
        subst hdnl
        have hl_eq : l = l.takeWhile notNl ++ '\n' :: rest := by
          conv_lhs => rw [← List.takeWhile_append_dropWhile (p := notNl) (l := l)]
          rw [hd]
        set a := l.takeWhile notNl with ha
        cases hrec : scanL f n rest with
        | none => simp [scanL, hf, hd, hrec] at hscan
        | some k =>
          have hscan' : a.length + 1 + k = v := by
            have hx := hscan
            simp [scanL, hf, hd, hrec, ← ha] at hx
            exact hx
          have hlen : rest.length < n := by
            have hlc := congrArg List.length hl_eq
            simp [List.length_append] at hlc
            omega
          obtain ⟨j', e, hls', hf', hv', hmin'⟩ := ih rest k hlen hrec
          refine ⟨a.length + 1 + j', e, ?_, ?_, by omega, ?_⟩
          · rw [hl_eq, ls_shift a rest _ (by omega)]
            have harith : a.length + 1 + j' - a.length - 1 = j' := by omega
            rw [harith]
            exact hls'
          · rw [hl_eq, drop_append_shift a rest _ (by omega)]
            have harith : a.length + 1 + j' - a.length - 1 = j' := by omega
            rw [harith]
            exact hf'
          · intro i hi hlsi
            by_cases hi0 : i = 0
            · rw [hi0, List.drop_zero]; exact hf
            · have hipos : 0 < i := Nat.pos_of_ne_zero hi0
              by_cases hcase : i - 1 < a.length
              · rw [hl_eq] at hlsi
                rw [ls_before_false a rest (fun c hc => List.mem_takeWhile_imp hc) i hipos hcase] at hlsi
                simp at hlsi
              · have hge : a.length + 1 ≤ i := by omega
                rw [hl_eq] at hlsi
                rw [ls_shift a rest i hge] at hlsi
                rw [hl_eq, drop_append_shift a rest i hge]
                exact hmin' (i - a.length - 1) (by omega) hlsi

/-! ### The heading matcher -/

theorem matchHeadingAt_expand (rest w r1 r2 run rem : List Char)
    (hw : w = rest.takeWhile pws) (hr1 : r1 = rest.drop w.length)
    (hr2 : r2 = r1.drop mods.length) (hrun : run = r2.takeWhile pws)
    (hrem : rem = r2.drop run.length) :
    matchHeadingAt ('#' :: '#' :: rest) =
      (if w.length = 0 then none
       else if beginsWith mods r1 then
         (if rem.length = 0 then some (2 + w.length + mods.length + run.length)
          else
            match lastNlIdx run with
            | some k => some (2 + w.length + mods.length + k)
            | none => none)
       else none) := by
  subst hw hr1 hr2 hrun hrem
  rfl

theorem matchHeadingAt_not_hash (l : List Char)
    (h : ¬ ∃ rest, l = '#' :: '#' :: rest) : matchHeadingAt l = none := by
  unfold matchHeadingAt
  split
  · exact absurd ⟨_, rfl⟩ h
  · rfl

theorem mods_len : mods.length = 7 := by decide

theorem matchHeadingAt_le (l : List Char) (e : Nat) (h : matchHeadingAt l = some e) :
    e ≤ l.length := by
  by_cases hsh : ∃ rest, l = '#' :: '#' :: rest
  · obtain ⟨rest, rfl⟩ := hsh
    set w := rest.takeWhile pws with hw
    set r1 := rest.drop w.length with hr1
    set r2 := r1.drop mods.length with hr2
    set run := r2.takeWhile pws with hrun
    set rem := r2.drop run.length with hrem
    rw [matchHeadingAt_expand rest w r1 r2 run rem hw hr1 hr2 hrun hrem] at h
    have f1 : w.length ≤ rest.length := by rw [hw]; exact takeWhile_len_le pws rest
    have f2 : r1.length = rest.length - w.length := by rw [hr1]; exact List.length_drop _ _
    have f4 : r2.length = r1.length - mods.length := by rw [hr2]; exact List.length_drop _ _
    have f5 : run.length ≤ r2.length := by rw [hrun]; exact takeWhile_len_le pws r2
    by_cases h0 : w.length = 0
    · rw [if_pos h0] at h; simp at h
    · rw [if_neg h0] at h
      by_cases hb : beginsWith mods r1 = true
      · rw [if_pos hb] at h
        have f3 : mods.length ≤ r1.length := beginsWith_len_le _ _ hb
        by_cases hre : rem.length = 0
        · rw [if_pos hre] at h
          simp at h
          simp only [List.length_cons]
          omega
        · rw [if_neg hre] at h
          cases hlast : lastNlIdx run with
          | none => rw [hlast] at h; simp at h
          | some k =>
            rw [hlast] at h
            simp at h
            have f6 := lastNl_lt run k hlast
            simp only [List.length_cons]
            omega
      · rw [if_neg hb] at h; simp at h
  · rw [matchHeadingAt_not_hash l hsh] at h
    simp at h

theorem headingSearch_le (t : List Char) (s : Nat) (h : headingSearch t = some s) :
    s ≤ t.length := by
  obtain ⟨j, e, hls, hm, hv, _⟩ :=
    scanL_some_sound matchHeadingAt (t.length + 1) t s (by omega) h
  have hj : j ≤ t.length := by
    have hls' := hls
    simp [isLineStartB] at hls'
    rcases hls' with h1 | h2
    · omega
    · have hlt : j - 1 < t.length := by
        by_contra hc
        rw [List.getElem?_eq_none (by omega)] at h2
        simp at h2
      omega
  have he := matchHeadingAt_le _ _ hm
  have := List.length_drop j t
  omega

/-- Success of the heading matcher on a well-formed heading suffix:
two `#`, nonempty whitespace, `Modules`, trailing whitespace, then a
newline or the end of the text. -/
theorem matchHeadingAt_isSome (w w2 tl : List Char) (hw : w ≠ [])
    (hws : ∀ c ∈ w, pws c = true) (hw2 : ∀ c ∈ w2, pws c = true)
    (htl : tl = [] ∨ tl.head? = some '\n') :
    (matchHeadingAt ('#' :: '#' :: (w ++ (mods ++ (w2 ++ tl))))).isSome = true := by
  have hwtake : (w ++ (mods ++ (w2 ++ tl))).takeWhile pws = w := by
    rw [takeWhile_append_all pws w _ hws]
    rw [show mods ++ (w2 ++ tl) = 'M' :: ("odules".toList ++ (w2 ++ tl)) from rfl]
    rw [takeWhile_cons_false pws 'M' _ (by decide)]
    simp
  have hwdrop : (w ++ (mods ++ (w2 ++ tl))).drop w.length = mods ++ (w2 ++ tl) :=
    List.drop_left w _
  rw [matchHeadingAt_expand (w ++ (mods ++ (w2 ++ tl))) w (mods ++ (w2 ++ tl))
    (w2 ++ tl) ((w2 ++ tl).takeWhile pws)
    ((w2 ++ tl).drop ((w2 ++ tl).takeWhile pws).length)
    hwtake.symm hwdrop.symm (List.drop_left mods _).symm rfl rfl]
  have hwne : ¬ w.length = 0 := by
    intro h0
    exact hw (List.length_eq_zero.mp h0)
  rw [if_neg hwne, if_pos (beginsWith_self_append mods (w2 ++ tl))]
  rcases htl with h | h
  · subst h
    have htk : (w2 ++ ([] : List Char)).takeWhile pws = w2 := by
      rw [List.append_nil]
      have := takeWhile_append_all pws w2 [] hw2
      simpa using this
    rw [htk]
    have hdr : (w2 ++ ([] : List Char)).drop w2.length = [] := by
      rw [List.append_nil, List.drop_length]
    rw [hdr]
    simp
  · obtain ⟨t3, rfl⟩ : ∃ t3, tl = '\n' :: t3 := by
      cases tl with
      | nil => simp at h
      | cons c cs => simp at h; exact ⟨cs, by rw [h]⟩
    have htk : (w2 ++ '\n' :: t3).takeWhile pws = w2 ++ '\n' :: t3.takeWhile pws := by
      rw [takeWhile_append_all pws w2 _ hw2, List.takeWhile_cons]
      have hp : pws '\n' = true := by decide
      rw [hp]
      simp
    rw [htk]
    by_cases hre : ((w2 ++ '\n' :: t3).drop (w2 ++ '\n' :: t3.takeWhile pws).length).length = 0
    · rw [if_pos hre]
      simp
    · rw [if_neg hre]
      have hmem : '\n' ∈ w2 ++ '\n' :: t3.takeWhile pws :=
        List.mem_append_right w2 (List.mem_cons_self _ _)
      have hsome := lastNl_isSome_of_mem _ hmem
      cases hlast : lastNlIdx (w2 ++ '\n' :: t3.takeWhile pws) with
      | none => rw [hlast] at hsome; simp at hsome
      | some k => simp

/-! ### The section rewriter: decomposition and fixed points -/

theorem secHeadF_some (l : List Char) (e : Nat) (h : secHeadF l = some e) :
    isSecHeadStart l = true ∧ e = 0 := by
  by_cases hs : isSecHeadStart l = true
  · rw [secHeadF, if_pos hs] at h
    simp at h
    exact ⟨hs, h.symm⟩
  · rw [secHeadF, if_neg hs] at h
    simp at h

theorem secHeadF_none (l : List Char) (h : secHeadF l = none) :
    isSecHeadStart l = false := by
  by_cases hs : isSecHeadStart l = true
  · rw [secHeadF, if_pos hs] at h
    simp at h
  · simp at hs
    exact hs

theorem rewrite_of_no_heading (t : List Char) (h : headingSearch t = none) :
    rewriteModulesSection t = t := by
  simp [rewriteModulesSection, h]

theorem startOf_some (t : List Char) (s : Nat) (h : headingSearch t = some s) :
    startOf t = s := by
  simp [startOf, h]

theorem startOf_none (t : List Char) (h : headingSearch t = none) :
    startOf t = t.length := by
  simp [startOf, h]

theorem startOf_le (t : List Char) : startOf t ≤ t.length := by
  cases hh : headingSearch t with
  | none => rw [startOf_none t hh]
  | some s => rw [startOf_some t s hh]; exact headingSearch_le t s hh

theorem rewrite_decomposed (t : List Char) (s : Nat) (h : headingSearch t = some s) :
    rewriteModulesSection t =
      t.take (startOf t) ++ subLinks (sectionOf t) ++ afterOf t := by
  simp [rewriteModulesSection, startOf, sectionOf, sectionLen, afterOf, h]

theorem decomp (t : List Char) :
    t.take (startOf t) ++ (sectionOf t ++ afterOf t) = t := by
  rw [sectionOf, afterOf, List.take_append_drop, List.take_append_drop]

theorem rewrite_fix (u : List Char) (h : hasLink none (sectionOf u) = false) :
    rewriteModulesSection u = u := by
  cases hh : headingSearch u with
  | none => exact rewrite_of_no_heading u hh
  | some s =>
    rw [rewrite_decomposed u s hh]
    rw [show subLinks (sectionOf u) = sectionOf u from
      subAux_eq_self (sectionOf u).length none (sectionOf u) h]
    rw [List.append_assoc]
    exact decomp u

theorem sectionOf_none (t : List Char) (h : headingSearch t = none) :
    sectionOf t = [] := by
  simp [sectionOf, sectionLen, h]

theorem sectionOf_sec_none (t : List Char) (s : Nat) (h : headingSearch t = some s)
    (h2 : sectionSearch (t.drop s) = none) :
    sectionOf t = t.drop s ∧ afterOf t = [] := by
  constructor
  · simp [sectionOf, sectionLen, startOf, h, h2]
  · simp [afterOf, sectionLen, startOf, h, h2]
    have := headingSearch_le t s h
    omega

/-! ### The root locator and the orchestration model -/

theorem findRootLoop_no_marker (fs : FS) (start : List String) :
    ∀ cur : List String,
      (∀ p : List String, p <:+ cur → hasGit fs p = false ∧ hasReadmeSrc fs p = false) →
      findRootLoop fs start cur = start := by
  intro cur
  induction cur with
  | nil =>
    intro h
    obtain ⟨hg, hr⟩ := h [] (List.suffix_refl [])
    simp [findRootLoop, hg, hr]
  | cons c rest ih =>
    intro h
    obtain ⟨hg, hr⟩ := h (c :: rest) (List.suffix_refl _)
    simp only [findRootLoop, hg, hr, Bool.false_eq_true, if_false]
    exact ih (fun p hp => h p (hp.trans (List.suffix_cons c rest)))

theorem containsSeg_append_right (pat l r : List Char)
    (h : containsSeg pat r = true) : containsSeg pat (l ++ r) = true := by
  induction l with
  | nil => simpa using h
  | cons c rest ih =>
    rw [List.cons_append, containsSeg]
    rw [ih]
    simp

theorem noSectionMsg_ne_createdMsg (root : List Char) :
    noSectionMsg ≠ createdMsg root := by
  intro hcontr
  have h1 : noSectionMsg.head? = some 'S' := by decide
  have h2 : (createdMsg root).head? = some 'C' := by
    rw [createdMsg]
    simp only [List.head?_append]
    rw [show ("Created ".toList : List Char).head? = some 'C' from by decide]
    simp
  rw [hcontr, h2] at h1
  simp at h1

/-! ### Additional line-start helper for heading completeness -/

theorem ls_append_own (pre sfx : List Char)
    (hpre : pre = [] ∨ pre.getLast? = some '\n') :
    isLineStartB (pre ++ sfx) pre.length = true := by
  rcases hpre with h | h
  · subst h
    simp [isLineStartB]
  · obtain ⟨p', rfl⟩ := getLast?_concat_form pre '\n' h
    have hlen : (p' ++ ['\n']).length = p'.length + 1 := by simp
    have hda : ((p' ++ ['\n']) ++ sfx).drop ((p' ++ ['\n']).length - 1) = '\n' :: sfx := by
      rw [hlen]
      simp only [Nat.add_sub_cancel]
      rw [List.append_assoc]
      rw [show ['\n'] ++ sfx = '\n' :: sfx from rfl]
      exact List.drop_left p' _
    simp only [isLineStartB, hda]
    simp

/-! ### The claims -/

/-- Claim C1, counterexample: the Section Rewriter is not idempotent.  On
`## Modules\n[a](x)(y)\n` the first pass rewrites `[a](x)` to `[a]`,
leaving `[a](y)`, which a second pass rewrites again. -/
theorem c1_counterexample :
    rewriteModulesSection (rewriteModulesSection ("## Modules\n[a](x)(y)\n".toList)) ≠
      rewriteModulesSection ("## Modules\n[a](x)(y)\n".toList) := by
  decide

/-- Claim C1 (amended): applying the Section Rewriter twice yields the
same result as applying it once whenever the once-rewritten document's
section body contains no remaining inline-link occurrence (which holds in
particular for links already stripped of their `(url)` component, the case
the original claim argued from). -/
theorem c1_idempotent_of_no_residual_link (t : List Char)
    (h : hasLink none (sectionOf (rewriteModulesSection t)) = false) :
    rewriteModulesSection (rewriteModulesSection t) = rewriteModulesSection t :=
  rewrite_fix (rewriteModulesSection t) h

/-- Witness for C1 at a concrete input whose rewritten section has no
residual link. -/
theorem c1_witness :
    hasLink none (sectionOf (rewriteModulesSection
      ("## Modules\n- [core](./core.md) does X\n".toList))) = false ∧
    rewriteModulesSection (rewriteModulesSection
      ("## Modules\n- [core](./core.md) does X\n".toList)) =
      rewriteModulesSection ("## Modules\n- [core](./core.md) does X\n".toList) :=
  ⟨by decide, c1_idempotent_of_no_residual_link _ (by decide)⟩

/-- Claim C2: byte-exact framing.  The rewritten document agrees with the
input on the prefix up to the section-body start, and its suffix from the
(possibly shifted) end of the rewritten section equals the input's suffix
from the section end. -/
theorem c2_frame (t : List Char) :
    (rewriteModulesSection t).take (startOf t) = t.take (startOf t) ∧
    (rewriteModulesSection t).drop (startOf t + (subLinks (sectionOf t)).length) =
      t.drop (endOf t) := by
  cases hh : headingSearch t with
  | none =>
    rw [rewrite_of_no_heading t hh]
    refine ⟨rfl, ?_⟩
    rw [sectionOf_none t hh]
    rw [show subLinks ([] : List Char) = [] from rfl]
    simp [endOf, startOf_none t hh, sectionLen, hh]
  | some s =>
    have hsle : s ≤ t.length := headingSearch_le t s hh
    have hso : startOf t = s := startOf_some t s hh
    have hlenB : (t.take (startOf t)).length = startOf t := by
      rw [List.length_take, hso]
      exact Nat.min_eq_left hsle
    have hBM : (t.take (startOf t) ++ subLinks (sectionOf t)).length =
        startOf t + (subLinks (sectionOf t)).length := by
      rw [List.length_append, hlenB]
    constructor
    · rw [rewrite_decomposed t s hh]
      rw [List.append_assoc, List.take_append_eq_append_take, hlenB, Nat.sub_self]
      simp [List.take_take]
    · rw [rewrite_decomposed t s hh]
      rw [List.drop_append_eq_append_drop, List.drop_eq_nil_of_le (le_of_eq hBM),
        List.nil_append, hBM, Nat.sub_self, List.drop_zero]
      rw [afterOf, List.drop_drop, endOf, Nat.add_comm]

/-- Claim C3, counterexample: a `## Modules` heading line preceded by one
space satisfies the trimmed-line condition of the claim, yet the rewriter
takes the unchanged no-heading path (the regex `^` anchor admits no
leading whitespace). -/
theorem c3_counterexample :
    (" ## Modules".toList).dropWhile pws = "## Modules".toList ∧
    headingSearch (" ## Modules\n- [a](b)\n".toList) = none ∧
    rewriteModulesSection (" ## Modules\n- [a](b)\n".toList) =
      " ## Modules\n- [a](b)\n".toList := by
  decide

/-- Claim C3 (amended): for every text containing, at column 0 of a line,
exactly two `#`, required whitespace, the word `Modules`, and optional
trailing whitespace up to a newline or the end of the text, the Section
Rewriter locates a heading (it does not take the unchanged no-heading
path).  Leading whitespace before the `##` defeats the match. -/
theorem c3_heading_found (pre w w2 tl : List Char)
    (hpre : pre = [] ∨ pre.getLast? = some '\n')
    (hw : w ≠ []) (hws : ∀ c ∈ w, pws c = true) (hw2 : ∀ c ∈ w2, pws c = true)
    (htl : tl = [] ∨ tl.head? = some '\n') :
    (headingSearch (pre ++ '#' :: '#' :: (w ++ (mods ++ (w2 ++ tl))))).isSome = true := by
  set sfx := '#' :: '#' :: (w ++ (mods ++ (w2 ++ tl))) with hsfx
  cases hh : headingSearch (pre ++ sfx) with
  | some s => simp
  | none =>
    exfalso
    have hls : isLineStartB (pre ++ sfx) pre.length = true := ls_append_own pre sfx hpre
    have hnone := scanL_none_sound matchHeadingAt ((pre ++ sfx).length + 1) (pre ++ sfx)
      (by omega) hh pre.length hls
    rw [List.drop_left pre sfx] at hnone
    have hsome := matchHeadingAt_isSome w w2 tl hw hws hw2 htl
    rw [← hsfx] at hsome
    rw [hnone] at hsome
    simp at hsome

/-- Witness for C3 at a concrete heading occurrence. -/
theorem c3_witness :
    (headingSearch ("Intro\n".toList ++
      '#' :: '#' :: ([' '] ++ (mods ++ ([] ++ "\nBody\n".toList))))).isSome = true :=
  c3_heading_found ("Intro\n".toList) [' '] [] ("\nBody\n".toList)
    (Or.inr (by decide)) (by decide) (by decide) (by decide) (Or.inr (by decide))

/-- Claim C4: when no directory on the resolved ancestor chain carries a
`.git` entry or a `README.md`-and-`src` pair, `find_project_root` returns
the original starting path unchanged. -/
theorem c4_root_fallback (fs : FS) (start : List String)
    (h : ∀ p : List String, p <:+ fs.resolvePath start →
      hasGit fs p = false ∧ hasReadmeSrc fs p = false) :
    findProjectRoot fs start = start :=
  findRootLoop_no_marker fs start (fs.resolvePath start) h

/-- Witness for C4 on a marker-free filesystem. -/
theorem c4_witness :
    findProjectRoot ⟨fun _ => false, fun p => p⟩ ["b", "a"] = ["b", "a"] :=
  c4_root_fallback ⟨fun _ => false, fun p => p⟩ ["b", "a"] (fun _ _ => ⟨rfl, rfl⟩)

/-- Claim C5: a directory carrying a `.git` entry, or both `README.md` and
`src`, or both, is returned by `find_project_root` started at it; the
`.git` test alone suffices, as does the pair. -/
theorem c5_marker_found (fs : FS) (start : List String)
    (hres : fs.resolvePath start = start)
    (h : hasGit fs start = true ∨ hasReadmeSrc fs start = true) :
    findProjectRoot fs start = start := by
  rw [findProjectRoot, hres]
  cases start with
  | nil => simp [findRootLoop]
  | cons c rest =>
    rcases h with hg | hr
    · simp [findRootLoop, hg]
    · by_cases hgit : hasGit fs (c :: rest) = true
      · simp [findRootLoop, hgit]
      · simp at hgit
        simp [findRootLoop, hgit, hr]

/-- Witness for C5 on a directory carrying all three marker entries. -/
theorem c5_witness :
    findProjectRoot
      ⟨fun p => decide (p = [".git", "proj"] ∨ p = ["README.md", "proj"] ∨ p = ["src", "proj"]),
        fun p => p⟩ ["proj"] = ["proj"] :=
  c5_marker_found _ _ rfl (Or.inl (by decide))

/-- Claim C6: when the input has no `## Modules` heading, the tool still
writes the byte-identical text to the output location, reports the
distinct unchanged-copy status line, and exits with status 0. -/
theorem c6_no_heading_copy (root text : List Char) (h : headingSearch text = none) :
    (mainModel root (some text)).written = some text ∧
    (mainModel root (some text)).exitCode = 0 ∧
    (mainModel root (some text)).stdoutLine = some noSectionMsg ∧
    noSectionMsg ≠ createdMsg root := by
  have hm : mainModel root (some text) = ⟨some text, some noSectionMsg, none, 0⟩ := by
    simp [mainModel, h]
  rw [hm]
  exact ⟨rfl, rfl, rfl, noSectionMsg_ne_createdMsg root⟩

/-- Witness for C6 on a heading-free document. -/
theorem c6_witness :
    (mainModel ("/r".toList) (some ("# Title\nplain text\n".toList))).written =
      some ("# Title\nplain text\n".toList) ∧
    (mainModel ("/r".toList) (some ("# Title\nplain text\n".toList))).exitCode = 0 ∧
    (mainModel ("/r".toList) (some ("# Title\nplain text\n".toList))).stdoutLine =
      some noSectionMsg ∧
    noSectionMsg ≠ createdMsg ("/r".toList) :=
  c6_no_heading_copy _ _ (by decide)

/-- Claim C7: when the resolved README does not exist, the tool writes no
output, prints nothing on stdout, reports on the error stream a line
containing both the attempted README path and the resolved root, and
terminates with exit status 1. -/
theorem c7_missing_readme (root : List Char) :
    (mainModel root none).written = none ∧
    (mainModel root none).stdoutLine = none ∧
    (mainModel root none).exitCode = 1 ∧
    (mainModel root none).stderrLine = some (errorMsg root) ∧
    (∃ l r, errorMsg root = l ++ (root ++ "/README.md".toList) ++ r) ∧
    (∃ l r, errorMsg root = l ++ root ++ r) := by
  refine ⟨rfl, rfl, rfl, rfl, ?_, ?_⟩
  · exact ⟨"Error: ".toList, " not found (root: ".toList ++ root ++ ")".toList,
      by simp [errorMsg, List.append_assoc]⟩
  · exact ⟨"Error: ".toList ++ (root ++ "/README.md".toList) ++ " not found (root: ".toList,
      ")".toList, by simp [errorMsg, List.append_assoc]⟩

/-- Claim C8: with a located heading, the section body ends at the first
subsequent line start whose line begins with `#`-plus-whitespace or
`##`-plus-whitespace, no earlier line start qualifying; when no such line
exists, the body runs to the end of the document and the whole remainder
goes through the link rewriting pass. -/
theorem c8_section_end (t : List Char) (s : Nat) (h : headingSearch t = some s) :
    (∀ k, sectionSearch (t.drop s) = some k →
        isLineStartB (t.drop s) k = true ∧
        isSecHeadStart ((t.drop s).drop k) = true ∧
        ∀ j, j < k → isLineStartB (t.drop s) j = true →
          isSecHeadStart ((t.drop s).drop j) = false) ∧
    (sectionSearch (t.drop s) = none →
        (∀ j, isLineStartB (t.drop s) j = true →
          isSecHeadStart ((t.drop s).drop j) = false) ∧
        rewriteModulesSection t = t.take s ++ subLinks (t.drop s)) := by
  constructor
  · intro k hk
    obtain ⟨j, e, hls, hf, hv, hmin⟩ :=
      scanL_some_sound secHeadF ((t.drop s).length + 1) (t.drop s) k (by omega) hk
    obtain ⟨hsec, he0⟩ := secHeadF_some _ _ hf
    have hkj : k = j := by omega
    subst hkj
    refine ⟨hls, hsec, ?_⟩
    intro j' hj' hlsj'
    exact secHeadF_none _ (hmin j' hj' hlsj')
  · intro hnone
    constructor
    · intro j hlsj
      exact secHeadF_none _
        (scanL_none_sound secHeadF ((t.drop s).length + 1) (t.drop s) (by omega) hnone j hlsj)
    · obtain ⟨hsec, hafter⟩ := sectionOf_sec_none t s h hnone
      rw [rewrite_decomposed t s h, startOf_some t s h, hsec, hafter, List.append_nil]

/-- Witness for C8: the heading is located at offset 10 and the section
terminator `## Usage` is found at the first qualifying line start. -/
theorem c8_witness :
    headingSearch ("## Modules\n[a](b)\n## Usage\nx".toList) = some 10 ∧
    isLineStartB (("## Modules\n[a](b)\n## Usage\nx".toList).drop 10) 8 = true ∧
    isSecHeadStart ((("## Modules\n[a](b)\n## Usage\nx".toList).drop 10).drop 8) = true := by
  refine ⟨by decide, ?_, ?_⟩
  · exact ((c8_section_end ("## Modules\n[a](b)\n## Usage\nx".toList) 10 (by decide)).1
      8 (by decide)).1
  · exact ((c8_section_end ("## Modules\n[a](b)\n## Usage\nx".toList) 10 (by decide)).1
      8 (by decide)).2.1

/-- Claim C9, counterexample: an image link nested inside another link's
URL is not left byte-identical: rewriting `[a](![b](c))` consumes and
deletes the image substring `![b](c)`. -/
theorem c9_counterexample :
    containsSeg ("![b](c)".toList) ("## Modules\n[a](![b](c))\n".toList) = true ∧
    rewriteModulesSection ("## Modules\n[a](![b](c))\n".toList) =
      "## Modules\n[a])\n".toList ∧
    containsSeg ("![b](c)".toList)
      (rewriteModulesSection ("## Modules\n[a](![b](c))\n".toList)) = false := by
  decide

/-- Claim C9 (amended): when the image link is not preceded by any `[` in
the section body (so it cannot fall inside another link's URL), the image
substring `![alt](img.png)` survives the rewriting pass byte-identically
while the adjacent inline link `[text](http://x)` is rewritten to
`[text]`. -/
theorem c9_image_preserved (pre : List Char) (hpre : '[' ∉ pre) :
    subLinks (pre ++ "![alt](img.png) [text](http://x)\n".toList) =
      pre ++ "![alt](img.png) [text]\n".toList ∧
    containsSeg ("![alt](img.png)".toList)
      (subLinks (pre ++ "![alt](img.png) [text](http://x)\n".toList)) = true := by
  have hbody : subLinks (pre ++ "![alt](img.png) [text](http://x)\n".toList) =
      pre ++ "![alt](img.png) [text]\n".toList := by
    show subAux (pre ++ "![alt](img.png) [text](http://x)\n".toList).length none
      (pre ++ "![alt](img.png) [text](http://x)\n".toList) = _
    rw [List.length_append]
    rw [subAux_copy_seg pre hpre
      (pre.length + ("![alt](img.png) [text](http://x)\n".toList).length) none
      ("![alt](img.png) [text](http://x)\n".toList)
      (le_of_eq (List.length_append _ _))]
    rw [Nat.add_sub_cancel_left]
    rw [subAux_prev_irrel _ (lastOr none pre) none _ (by decide)]
    congr 1
  refine ⟨hbody, ?_⟩
  rw [hbody]
  exact containsSeg_append_right _ pre _ (by decide)

/-- Witness for C9 with the image link preceded by a plain list bullet. -/
theorem c9_witness :
    subLinks ("- ".toList ++ "![alt](img.png) [text](http://x)\n".toList) =
      "- ".toList ++ "![alt](img.png) [text]\n".toList ∧
    containsSeg ("![alt](img.png)".toList)
      (subLinks ("- ".toList ++ "![alt](img.png) [text](http://x)\n".toList)) = true :=
  c9_image_preserved ("- ".toList) (by decide)

/-- Claim C10: the rewritten document is never longer than the input, with
equality exactly when no heading is found or no qualifying link occurs in
the section body. -/
theorem c10_length (t : List Char) :
    (rewriteModulesSection t).length ≤ t.length ∧
    ((rewriteModulesSection t).length = t.length ↔
      (headingSearch t = none ∨ hasLink none (sectionOf t) = false)) := by
  cases hh : headingSearch t with
  | none =>
    rw [rewrite_of_no_heading t hh]
    simp
  | some s =>
    have hsle : s ≤ t.length := headingSearch_le t s hh
    have hso : startOf t = s := startOf_some t s hh
    have hlenB : (t.take (startOf t)).length = startOf t := by
      rw [List.length_take, hso]
      exact Nat.min_eq_left hsle
    have htot : startOf t + ((sectionOf t).length + (afterOf t).length) = t.length := by
      have hd := congrArg List.length (decomp t)
      simp only [List.length_append] at hd
      omega
    have hsub_le : (subLinks (sectionOf t)).length ≤ (sectionOf t).length :=
      subAux_len_le _ _ _
    rw [rewrite_decomposed t s hh]
    simp only [List.length_append, hlenB]
    constructor
    · omega
    · rcases Bool.eq_false_or_eq_true (hasLink none (sectionOf t)) with hb | hb
      · have hlt : (subLinks (sectionOf t)).length < (sectionOf t).length :=
          subAux_len_lt (sectionOf t).length none (sectionOf t) (le_refl _) hb
        constructor
        · intro habs
          exfalso
          omega
        · intro hor
          rcases hor with h1 | h1
          · exact absurd h1 (by simp)
          · rw [h1] at hb
            simp at hb
      · have heq : subLinks (sectionOf t) = sectionOf t :=
          subAux_eq_self (sectionOf t).length none (sectionOf t) hb
        rw [heq]
        constructor
        · intro _
          exact Or.inr hb
        · intro _
          omega
